import Mathlib

/-!
Verification of `scripts/generate-languages.py`: a pipeline that fetches a
user's repositories page by page, filters out forks and archived
repositories, aggregates per-language byte counts, converts them to rounded
percentage shares (top 5, sorted descending), and renders an SVG bar chart.

Modelling conventions:
* Python dicts are association lists `List (String × β)` in insertion order;
  `d[k] = v` replaces the first binding in place or appends a fresh one at
  the end (`dictSet`), and `d.get(k, dflt)` is `dictGetD` — exactly the
  observable behaviour of a Python dict.
* Python ints are `Int` (arbitrary precision); byte counts from the JSON
  language breakdowns are `Int` values.
* Python floats are modelled as exact rationals `ℚ`; `round(x, 1)` is
  round-half-to-even at one decimal (`pyRound1`), the rule Python's `round`
  implements on the decimal value.
* `list.sort(key=lambda x: x["percent"], reverse=True)` is a stable
  descending sort by the `percent` field; it is modelled by
  `List.insertionSort shareDesc`, which is stable with the same tie order.
* The network is explicit: `pages : Nat → List α` gives the body of
  `GET /user/repos?per_page=100&page=N`, and `net : String → List (String × Int)`
  gives the body of `GET <languages_url>`.  `aggregate_languages`
  additionally records the list of language URLs it actually requested, so
  that "the endpoint is never queried" is a statement about the model.
* The unbounded `while True` fetch loop is given explicit fuel; theorems
  assume the fuel reaches the first empty page, which is when the real loop
  terminates.
-/

/-- A record of `calculate_percentages`: `{"name": ..., "percent": ...}`. -/
structure LanguageShare where
  name : String
  percent : ℚ
deriving DecidableEq, Repr

/-- The fields of a repository JSON object that the script reads:
`repo.get("fork")`, `repo.get("archived")`, `repo.get("languages_url")`
(`none` models a missing key; `some ""` is also falsy in Python). -/
structure Repo where
  name : String
  fork : Bool
  archived : Bool
  languages_url : Option String
deriving DecidableEq, Repr

/-- Python `d.get(k, dflt)` on an insertion-ordered dict. -/
def dictGetD {β : Type} : List (String × β) → String → β → β
  | [], _, dflt => dflt
  | p :: d, k, dflt => if p.1 = k then p.2 else dictGetD d k dflt

/-- Python `d[k] = v`: replace the existing binding in place, else append. -/
def dictSet {β : Type} : List (String × β) → String → β → List (String × β)
  | [], k, v => [(k, v)]
  | p :: d, k, v => if p.1 = k then (k, v) :: d else p :: dictSet d k v

/-- Python `k in d`. -/
def hasKey {β : Type} (d : List (String × β)) (k : String) : Bool :=
  d.any fun p => p.1 == k

/-- Round-half-to-even to an integer, the rounding rule of Python's `round`. -/
def roundHalfEven (q : ℚ) : ℤ :=
  let n := ⌊q⌋
  if q - n < 1/2 then n
  else if 1/2 < q - n then n + 1
  else if n % 2 = 0 then n else n + 1

/-- Python `round(x, 1)`. -/
def pyRound1 (q : ℚ) : ℚ :=
  (roundHalfEven (q * 10) : ℚ) / 10

def TOP_N : Nat := 5

/-- Descending comparison on the `percent` field; `list.sort(..., reverse=True)`
is the stable sort with respect to this relation. -/
def shareDesc (a b : LanguageShare) : Prop :=
  b.percent ≤ a.percent

instance : DecidableRel shareDesc := fun a b =>
  inferInstanceAs (Decidable (b.percent ≤ a.percent))

instance : IsTotal LanguageShare shareDesc :=
  ⟨fun a b => (le_total b.percent a.percent).imp id id⟩

instance : IsTrans LanguageShare shareDesc :=
  ⟨fun _ _ _ h1 h2 => le_trans h2 h1⟩

/-- The record built for one `(lang, size)` item of the totals dict
(source lines 89–94): `percent = round((size / total) * 100, 1)`. -/
def mkShare (total : Int) (p : String × Int) : LanguageShare :=
  { name := p.1, percent := pyRound1 ((p.2 : ℚ) / (total : ℚ) * 100) }

/-- `calculate_percentages` (source lines 83–97): sum the byte counts; on a
zero total return `[]`; otherwise build one record per language with the
rounded percentage, stably sort by percent descending, and keep the first
`TOP_N`. -/
def calculate_percentages (language_bytes : List (String × Int)) : List LanguageShare :=
  let total : Int := (language_bytes.map Prod.snd).sum
  if total = 0 then []
  else
    let result := language_bytes.map (mkShare total)
    (List.insertionSort shareDesc result).take TOP_N

/-- `is_valid_repo` (source lines 48–53). -/
def is_valid_repo (repo : Repo) : Bool :=
  if repo.fork then false
  else if repo.archived then false
  else true

/-- The inner loop of `aggregate_languages`:
`for lang, size in languages.items(): totals[lang] = totals.get(lang, 0) + size`. -/
def addLangs (totals : List (String × Int)) (languages : List (String × Int)) :
    List (String × Int) :=
  languages.foldl (fun t p => dictSet t p.1 (dictGetD t p.1 0 + p.2)) totals

/-- Aggregation state: the `totals` dict of the source, plus the list of
language URLs requested so far (instrumentation of `requests.get`). -/
structure AggState where
  totals : List (String × Int)
  requested : List String
deriving DecidableEq, Repr

/-- One iteration of the `for repo in repos` loop of `aggregate_languages`
(source lines 62–75): skip invalid repos, skip a falsy `languages_url`
(missing key or empty string), otherwise fetch the breakdown and fold it in. -/
def aggregate_step (net : String → List (String × Int)) (acc : AggState) (repo : Repo) :
    AggState :=
  if !is_valid_repo repo then acc
  else
    match repo.languages_url with
    | none => acc
    | some url =>
      if url = "" then acc
      else
        let languages := net url
        { totals := addLangs acc.totals languages, requested := acc.requested ++ [url] }

/-- `aggregate_languages` (source lines 59–77). -/
def aggregate_languages (net : String → List (String × Int)) (repos : List Repo) :
    AggState :=
  repos.foldl (aggregate_step net) ⟨[], []⟩

/-- The paging loop of `fetch_all_repos` (source lines 30–40), with explicit
fuel standing for the unbounded `while True`.  Returns the accumulated items
and the number of requests issued. -/
def fetchPages {α : Type} (pages : Nat → List α) : Nat → Nat → List α × Nat
  | 0, _ => ([], 0)
  | fuel + 1, page =>
    let data := pages page
    if data.isEmpty then ([], 1)
    else
      let rest := fetchPages pages fuel (page + 1)
      (data ++ rest.1, rest.2 + 1)

/-- `fetch_all_repos` (source lines 26–42): start at page 1. -/
def fetch_all_repos {α : Type} (pages : Nat → List α) (fuel : Nat) : List α × Nat :=
  fetchPages pages fuel 1

/-- `LANG_COLORS` (source lines 103–143), in source order. -/
def LANG_COLORS : List (String × String) :=
  [("Python", "#3572A5"), ("JavaScript", "#f1e05a"), ("TypeScript", "#3178c6"),
   ("HTML", "#e34c26"), ("CSS", "#563d7c"), ("Go", "#00ADD8"), ("Java", "#b07219"),
   ("C++", "#f34b7d"), ("C", "#555555"), ("Shell", "#89e051"), ("Rust", "#000000"),
   ("PHP", "#777BB4"), ("Ruby", "#701516"), ("Swift", "#fa7343"), ("Kotlin", "#A97BFF"),
   ("Dart", "#00B4AB"), ("R", "#198CE7"), ("Scala", "#c22d40"), ("Lua", "#000080"),
   ("Perl", "#0298c3"), ("Haskell", "#5e5086"), ("Elixir", "#6e4a7e"),
   ("Clojure", "#db5855"), ("Julia", "#a270ba"), ("MATLAB", "#e16737"),
   ("Objective-C", "#438eff"), ("Vim Script", "#199f4b"), ("PowerShell", "#012456"),
   ("TeX", "#3D6117"), ("Vue", "#4FC08D"), ("Svelte", "#ff3e00"),
   ("Assembly", "#6E4C13"), ("Makefile", "#427819"), ("Dockerfile", "#2496ED"),
   ("YAML", "#cb171e"), ("JSON", "#292929"), ("XML", "#0060ac"),
   ("Markdown", "#083fa1"), ("Other", "#586069")]

/-- The number of decimal digits needed to write `1/den` exactly: the least
`k ≤ 30` with `den ∣ 10 ^ k` (the rationals the script prints always have
such a `k`). -/
def decimalDigits (den : Nat) : Nat :=
  (((List.range 30).find? fun k => 10 ^ k % den == 0).getD 30)

/-- Decimal rendering of a rational, modelling Python's `str` on the floats
interpolated into the SVG (`25.0` prints as `"25.0"`, `24.9` as `"24.9"`).
The model prints the exact decimal value of the rational. -/
def qStr (q : ℚ) : String :=
  let sign := if q.num < 0 then "-" else ""
  let n := q.num.natAbs
  let k := decimalDigits q.den
  let t := n * 10 ^ k / q.den
  let ip := t / 10 ^ k
  let fr := t % 10 ^ k
  if k = 0 then sign ++ toString ip ++ ".0"
  else
    let fs := toString fr
    let fsPad := String.mk (List.replicate (k - fs.length) '0') ++ fs
    sign ++ toString ip ++ "." ++ fsPad

/-- The fallback colour for a language missing from `LANG_COLORS`. -/
def fallbackColor : String := "#8b949e"

/-- The three SVG lines emitted for one language at vertical offset `y`
(source lines 189–199): the bar `<rect>`, the name `<text>`, and the
percentage `<text>`.  Constants are inlined as in the source:
`padding = 15`, `bar_height = 8`, `bar_max_width = 180`, `width = 400`,
so the label column is at `15 + 180 + 8` and the right edge at `400 - 15`.
The bar width is the float `(percent / 100) * bar_max_width`. -/
def svgRow (lang : LanguageShare) (y : Int) : List String :=
  let percent := lang.percent
  let bar_width : ℚ := percent / 100 * 180
  let color := dictGetD LANG_COLORS lang.name fallbackColor
  let bw := qStr bar_width
  let pc := qStr percent
  let nm := lang.name
  let xlabel : Int := 15 + 180 + 8
  let yt := y + 7
  let xpct : Int := 400 - 15
  [s!"<rect x=\"15\" y=\"{y}\" width=\"{bw}\" height=\"8\" class=\"bar\" fill=\"{color}\" />",
   s!"<text x=\"{xlabel}\" y=\"{yt}\" class=\"label\">{nm}</text>",
   s!"<text x=\"{xpct}\" y=\"{yt}\" text-anchor=\"end\" class=\"percent\">{pc}%</text>"]

/-- The body of the `for lang in languages` loop of `generate_svg`
(source lines 183–201): state is the accumulated line list and the current
`y`; each language appends its three lines and advances `y` by
`row_height = 18`. -/
def svgStep (acc : List String × Int) (lang : LanguageShare) : List String × Int :=
  (acc.1 ++ svgRow lang acc.2, acc.2 + 18)

/-- The fixed prefix of the SVG document (source lines 156–179), as a
function of the computed document height. -/
def svgHeader (height : Int) : List String :=
  ["<svg width=\"400\" height=\"" ++ toString height ++
     "\" viewBox=\"0 0 400 " ++ toString height ++ "\" xmlns=\"http://www.w3.org/2000/svg\">",
   "<defs>",
   "<linearGradient id=\"bgGradient\" x1=\"0%\" y1=\"0%\" x2=\"100%\" y2=\"100%\">",
   "<stop offset=\"0%\" style=\"stop-color:#0d1117;stop-opacity:1\" />",
   "<stop offset=\"100%\" style=\"stop-color:#161b22;stop-opacity:1\" />",
   "</linearGradient>",
   "</defs>",
   "<style>",
   "text \x7b font-family: -apple-system, BlinkMacSystemFont, \"Segoe UI\", Helvetica, Arial, sans-serif; font-size: 11px; fill: #c9d1d9; \x7d",
   ".title \x7b font-weight: 600; font-size: 14px; fill: #f0f6fc; \x7d",
   ".bg \x7b fill: url(#bgGradient); stroke: #30363d; stroke-width: 1; rx: 6; \x7d",
   ".bar \x7b rx: 3; \x7d",
   ".label \x7b fill: #f0f6fc; font-weight: 500; \x7d",
   ".percent \x7b fill: #8b949e; \x7d",
   "</style>",
   "<rect x=\"0\" y=\"0\" width=\"400\" height=\"" ++ toString height ++ "\" class=\"bg\" />",
   "<text x=\"15\" y=\"" ++ toString (15 + 12 : Int) ++ "\" class=\"title\">Most Used Languages</text>"]

/-- `generate_svg` (source lines 145–204): header lines, one loop pass per
language starting at `y = padding + title_height`, closing tag, joined with
newlines. -/
def generate_svg (languages : List LanguageShare) : String :=
  let height : Int := 15 * 2 + 25 + 18 * (languages.length : Int)
  let res := languages.foldl svgStep (svgHeader height, 15 + 25)
  String.intercalate "\n" (res.1 ++ ["</svg>"])

/-- Closed form of the render loop: rows at `y`, `y + 18`, `y + 36`, …. -/
def svgRowsFrom (y : Int) : List LanguageShare → List String
  | [] => []
  | l :: ls => svgRow l y ++ svgRowsFrom (y + 18) ls

def OUTPUT_FILE : String := "stats/languages.svg"

/-- The observable outcome of one run of `main` (source lines 209–224): the
status line printed to stdout, and the file written (path and content), if
any. -/
structure RunResult where
  printed : String
  written : Option (String × String)
deriving DecidableEq, Repr

namespace Script

/-- `main` (source lines 209–224): fetch, aggregate, rank; on an empty
ranking print the no-data message and write nothing, otherwise write the
rendered SVG to `OUTPUT_FILE` and print the success message. -/
def main (pages : Nat → List Repo) (net : String → List (String × Int))
    (fuel : Nat) : RunResult :=
  let repos := (fetch_all_repos pages fuel).1
  let language_bytes := (aggregate_languages net repos).totals
  let top_languages := calculate_percentages language_bytes
  if top_languages.isEmpty then
    { printed := "No language data found.", written := none }
  else
    { printed := "languages.svg generated successfully",
      written := some (OUTPUT_FILE, generate_svg top_languages) }

end Script

/-- The language URL `aggregate_languages` requests for `repo`, if any:
`repo` must be valid and carry a non-falsy `languages_url`. -/
def requestedUrl (repo : Repo) : Option String :=
  if is_valid_repo repo then
    match repo.languages_url with
    | none => none
    | some url => if url = "" then none else some url
  else none

/-- The bytes a single repository contributes to the aggregate: the sum of
its breakdown if it is counted (valid and bearing a non-empty
`languages_url`), else `0`. -/
def repoBytes (net : String → List (String × Int)) (repo : Repo) : Int :=
  match requestedUrl repo with
  | none => 0
  | some url => ((net url).map Prod.snd).sum

/-- Total bytes across all counted repositories. -/
def countedBytes (net : String → List (String × Int)) (repos : List Repo) : Int :=
  (repos.map (repoBytes net)).sum

/-- The bytes attributed to language `k` in one breakdown list. -/
def keyedSum (langs : List (String × Int)) (k : String) : Int :=
  ((langs.filter fun p => p.1 == k).map Prod.snd).sum

/-- The bytes repository `repo` contributes to language `k`. -/
def repoKeyBytes (net : String → List (String × Int)) (repo : Repo) (k : String) : Int :=
  match requestedUrl repo with
  | none => 0
  | some url => keyedSum (net url) k

/-- Whether repository `repo` is counted and its breakdown mentions `k`. -/
def repoMentions (net : String → List (String × Int)) (repo : Repo) (k : String) : Bool :=
  match requestedUrl repo with
  | none => false
  | some url => (net url).any fun p => p.1 == k

/-- `pages s ++ pages (s + 1) ++ ⋯ ++ pages (s + n - 1)`: the concatenation
of `n` consecutive pages starting at `s`. -/
def pageConcat {α : Type} (pages : Nat → List α) (s : Nat) : Nat → List α
  | 0 => []
  | n + 1 => pages s ++ pageConcat pages (s + 1) n

/-- The pure data pipeline of one run, from upstream data to the rendered
document. -/
def pipeline (net : String → List (String × Int)) (repos : List Repo) : String :=
  generate_svg (calculate_percentages (aggregate_languages net repos).totals)

/-! Concrete fixtures used by witnesses and counterexamples. -/

/-- A paginated source with 100 items on pages 1 and 2 and nothing after. -/
def pages3 : Nat → List Nat := fun p =>
  if 1 ≤ p ∧ p ≤ 2 then List.replicate 100 0 else []

/-- A totals dict where the zero-byte language `Z` precedes the one-byte
language `T`; the four 501-byte languages fill the rest of the top 5. -/
def lbZ : List (String × Int) :=
  [("B1", 501), ("B2", 501), ("B3", 501), ("B4", 501), ("Z", 0), ("T", 1)]

/-- `lbZ` without the zero-byte language. -/
def lbDropZ : List (String × Int) :=
  [("B1", 501), ("B2", 501), ("B3", 501), ("B4", 501), ("T", 1)]

/-- A small language-breakdown collaborator. -/
def netAB : String → List (String × Int) := fun url =>
  if url = "uA" then [("Python", 300), ("JavaScript", 100)]
  else if url = "uB" then [("Python", 100), ("Go", 500)]
  else []

/-- Two ordinary repositories pointing at `netAB`. -/
def repoA : Repo := { name := "A", fork := false, archived := false, languages_url := some "uA" }

def repoB : Repo := { name := "B", fork := false, archived := false, languages_url := some "uB" }

/-- A forked repository whose endpoint would return data. -/
def repoFork : Repo := { name := "F", fork := true, archived := false, languages_url := some "uA" }

/-- A valid repository whose record lacks `languages_url`. -/
def repoNoUrl : Repo := { name := "N", fork := false, archived := false, languages_url := none }

section ConcreteEvaluation

-- The Batteries rational operations are `@[irreducible]` for performance;
-- concrete evaluation by `decide` needs them unfolded.
attribute [local semireducible] Rat.mul Rat.add Rat.sub Rat.inv Rat.ofScientific

example :
    calculate_percentages [("Python", 400), ("JavaScript", 100), ("Go", 500)] =
      [⟨"Go", 50⟩, ⟨"Python", 40⟩, ⟨"JavaScript", 10⟩] := by decide

example : pyRound1 (1/4 * 100 : ℚ) = 25 := by decide

example :
    (calculate_percentages
      [("B1", 501), ("B2", 501), ("B3", 501), ("B4", 501), ("Z", 0), ("T", 1)]).map
        LanguageShare.name = ["B1", "B2", "B3", "B4", "Z"] := by decide

end ConcreteEvaluation

/-! ### Dictionary lemmas -/

theorem dictGetD_nonneg {d : List (String × Int)} (h : ∀ p ∈ d, 0 ≤ p.2) (k : String) :
    0 ≤ dictGetD d k 0 := by
  induction d with
  | nil => simp [dictGetD]
  | cons p rest ih =>
      simp only [dictGetD]
      split
      · exact h p (List.mem_cons_self ..)
      · exact ih fun q hq => h q (List.mem_cons_of_mem _ hq)

theorem mem_dictSet {d : List (String × Int)} {k : String} {v : Int} {p : String × Int}
    (h : p ∈ dictSet d k v) : p = (k, v) ∨ p ∈ d := by
  induction d with
  | nil => simpa [dictSet] using h
  | cons q rest ih =>
      by_cases hq : q.1 = k
      · simp only [dictSet, if_pos hq] at h
        rcases List.mem_cons.1 h with h | h
        · exact Or.inl h
        · exact Or.inr (List.mem_cons_of_mem _ h)
      · simp only [dictSet, if_neg hq] at h
        rcases List.mem_cons.1 h with h | h
        · exact Or.inr (h ▸ List.mem_cons_self ..)
        · rcases ih h with h | h
          · exact Or.inl h
          · exact Or.inr (List.mem_cons_of_mem _ h)

theorem dictGetD_dictSet_self (d : List (String × Int)) (k : String) (v : Int) :
    dictGetD (dictSet d k v) k 0 = v := by
  induction d with
  | nil => simp [dictSet, dictGetD]
  | cons q rest ih =>
      by_cases hq : q.1 = k
      · simp [dictSet, if_pos hq, dictGetD]
      · simp [dictSet, if_neg hq, dictGetD, hq, ih]

theorem strBeq_comm (a b : String) : (a == b) = (b == a) := by
  by_cases h : a = b
  · subst h; rfl
  · have h2 : ¬ b = a := fun e => h e.symm
    simp [beq_iff_eq, h, h2]

theorem hasKey_cons (q : String × Int) (d : List (String × Int)) (k : String) :
    hasKey (q :: d) k = ((q.1 == k) || hasKey d k) := rfl

theorem dictGetD_dictSet_ne (d : List (String × Int)) {k k' : String} (v : Int)
    (h : k' ≠ k) : dictGetD (dictSet d k v) k' 0 = dictGetD d k' 0 := by
  have hkk : ¬ (k = k') := fun h1 => h h1.symm
  induction d with
  | nil => simp [dictSet, dictGetD, hkk]
  | cons q rest ih =>
      by_cases hq : q.1 = k
      · have hq2 : ¬ (q.1 = k') := by rw [hq]; exact hkk
        simp [dictSet, if_pos hq, dictGetD, hkk, hq2]
      · simp only [dictSet, if_neg hq, dictGetD]
        split
        · rfl
        · exact ih

theorem hasKey_dictSet (d : List (String × Int)) (k a : String) (v : Int) :
    hasKey (dictSet d a v) k = (k == a || hasKey d k) := by
  induction d with
  | nil => simp [dictSet, hasKey, strBeq_comm]
  | cons q rest ih =>
      by_cases hq : q.1 = a
      · have hset : dictSet (q :: rest) a v = (a, v) :: rest := by simp [dictSet, hq]
        rw [hset, hasKey_cons, hasKey_cons, hq, strBeq_comm k a]
        cases h : a == k <;> simp [h]
      · have hset : dictSet (q :: rest) a v = q :: dictSet rest a v := by simp [dictSet, hq]
        rw [hset, hasKey_cons, hasKey_cons, ih]
        cases h1 : q.1 == k <;> cases h2 : k == a <;> simp [h1, h2]

theorem sum_dictSet (d : List (String × Int)) (k : String) (v : Int) :
    ((dictSet d k v).map Prod.snd).sum = (d.map Prod.snd).sum - dictGetD d k 0 + v := by
  induction d with
  | nil => simp [dictSet, dictGetD]
  | cons q rest ih =>
      by_cases hq : q.1 = k
      · rw [show dictSet (q :: rest) k v = (k, v) :: rest from by simp [dictSet, hq]]
        rw [show dictGetD (q :: rest) k 0 = q.2 from by simp [dictGetD, hq]]
        simp only [List.map_cons, List.sum_cons]
        ring
      · rw [show dictSet (q :: rest) k v = q :: dictSet rest k v from by simp [dictSet, hq]]
        rw [show dictGetD (q :: rest) k 0 = dictGetD rest k 0 from by simp [dictGetD, hq]]
        simp only [List.map_cons, List.sum_cons, ih]
        ring

/-! ### `addLangs` lemmas -/

theorem addLangs_nil (t : List (String × Int)) : addLangs t [] = t := rfl

theorem addLangs_cons (t : List (String × Int)) (p : String × Int)
    (ls : List (String × Int)) :
    addLangs t (p :: ls) = addLangs (dictSet t p.1 (dictGetD t p.1 0 + p.2)) ls := rfl

theorem sum_addLangs (langs t : List (String × Int)) :
    ((addLangs t langs).map Prod.snd).sum =
      (t.map Prod.snd).sum + (langs.map Prod.snd).sum := by
  induction langs generalizing t with
  | nil => simp [addLangs_nil]
  | cons p ls ih =>
      rw [addLangs_cons, ih, sum_dictSet]
      simp only [List.map_cons, List.sum_cons]
      ring

theorem dictGetD_addLangs (langs t : List (String × Int)) (k : String) :
    dictGetD (addLangs t langs) k 0 = dictGetD t k 0 + keyedSum langs k := by
  induction langs generalizing t with
  | nil => simp [addLangs_nil, keyedSum]
  | cons p ls ih =>
      rw [addLangs_cons, ih]
      by_cases hp : p.1 = k
      · rw [← hp, dictGetD_dictSet_self]
        have hks : keyedSum (p :: ls) p.1 = p.2 + keyedSum ls p.1 := by
          simp [keyedSum, List.filter_cons]
        rw [hks]
        ring
      · rw [dictGetD_dictSet_ne t _ fun h => hp h.symm]
        have hb : (p.1 == k) = false := by simpa using hp
        have hks : keyedSum (p :: ls) k = keyedSum ls k := by
          simp [keyedSum, List.filter_cons, hb]
        rw [hks]

theorem hasKey_addLangs (langs t : List (String × Int)) (k : String) :
    hasKey (addLangs t langs) k = (hasKey t k || langs.any fun p => p.1 == k) := by
  induction langs generalizing t with
  | nil => simp [addLangs_nil]
  | cons p ls ih =>
      rw [addLangs_cons, ih, hasKey_dictSet, strBeq_comm k p.1]
      cases h1 : (p.1 == k) <;> cases h2 : hasKey t k <;>
        simp [List.any_cons, h1, h2]

theorem nonneg_addLangs (langs t : List (String × Int))
    (ht : ∀ p ∈ t, 0 ≤ p.2) (hl : ∀ p ∈ langs, 0 ≤ p.2) :
    ∀ p ∈ addLangs t langs, 0 ≤ p.2 := by
  induction langs generalizing t with
  | nil => simpa [addLangs_nil] using ht
  | cons p ls ih =>
      rw [addLangs_cons]
      refine ih _ (fun q hq => ?_) fun q hq => hl q (List.mem_cons_of_mem _ hq)
      rcases mem_dictSet hq with h | h
      · subst h
        have h1 : 0 ≤ dictGetD t p.1 0 := dictGetD_nonneg ht _
        have h2 : 0 ≤ p.2 := hl p (List.mem_cons_self ..)
        simpa using add_nonneg h1 h2
      · exact ht q h

/-! ### `aggregate_languages` lemmas -/

theorem aggregate_step_eq (net : String → List (String × Int)) (s : AggState) (r : Repo) :
    aggregate_step net s r =
      match requestedUrl r with
      | none => s
      | some url => ⟨addLangs s.totals (net url), s.requested ++ [url]⟩ := by
  cases hv : is_valid_repo r <;> cases hu : r.languages_url <;>
    simp [aggregate_step, requestedUrl, hv, hu]
  split <;> simp

theorem aggregate_step_skip (net : String → List (String × Int)) (s : AggState) (r : Repo)
    (h : requestedUrl r = none) : aggregate_step net s r = s := by
  rw [aggregate_step_eq, h]

theorem agg_requested (net : String → List (String × Int)) (repos : List Repo) :
    ∀ s : AggState,
      (repos.foldl (aggregate_step net) s).requested =
        s.requested ++ repos.filterMap requestedUrl := by
  induction repos with
  | nil => intro s; simp
  | cons r rs ih =>
      intro s
      rw [List.foldl_cons, ih, aggregate_step_eq]
      cases hu : requestedUrl r
      · simp [List.filterMap_cons, hu]
      · simp [List.filterMap_cons, hu]

theorem agg_totals_get (net : String → List (String × Int)) (repos : List Repo) :
    ∀ (s : AggState) (k : String),
      dictGetD (repos.foldl (aggregate_step net) s).totals k 0 =
        dictGetD s.totals k 0 + (repos.map fun r => repoKeyBytes net r k).sum := by
  induction repos with
  | nil => intro s k; simp
  | cons r rs ih =>
      intro s k
      rw [List.foldl_cons, ih, aggregate_step_eq]
      cases hu : requestedUrl r
      · simp [repoKeyBytes, hu]
      · simp only [repoKeyBytes, hu, List.map_cons, List.sum_cons, dictGetD_addLangs]
        ring

theorem agg_totals_sum (net : String → List (String × Int)) (repos : List Repo) :
    ∀ s : AggState,
      ((repos.foldl (aggregate_step net) s).totals.map Prod.snd).sum =
        (s.totals.map Prod.snd).sum + countedBytes net repos := by
  induction repos with
  | nil => intro s; simp [countedBytes]
  | cons r rs ih =>
      intro s
      rw [List.foldl_cons, ih, aggregate_step_eq]
      cases hu : requestedUrl r
      · simp [countedBytes, repoBytes, hu]
      · simp only [countedBytes, repoBytes, hu, List.map_cons, List.sum_cons, sum_addLangs]
        ring

theorem agg_hasKey (net : String → List (String × Int)) (repos : List Repo) :
    ∀ (s : AggState) (k : String),
      hasKey (repos.foldl (aggregate_step net) s).totals k =
        (hasKey s.totals k || repos.any fun r => repoMentions net r k) := by
  induction repos with
  | nil => intro s k; simp
  | cons r rs ih =>
      intro s k
      rw [List.foldl_cons, ih, aggregate_step_eq]
      cases hu : requestedUrl r
      · simp [repoMentions, hu]
      · simp only [repoMentions, hu, List.any_cons, hasKey_addLangs]
        cases hasKey s.totals k <;> simp

theorem agg_nonneg (net : String → List (String × Int))
    (hnet : ∀ u, ∀ p ∈ net u, 0 ≤ p.2) (repos : List Repo) :
    ∀ s : AggState, (∀ p ∈ s.totals, 0 ≤ p.2) →
      ∀ p ∈ (repos.foldl (aggregate_step net) s).totals, 0 ≤ p.2 := by
  induction repos with
  | nil => intro s hs; simpa using hs
  | cons r rs ih =>
      intro s hs
      rw [List.foldl_cons]
      refine ih _ ?_
      rw [aggregate_step_eq]
      cases hu : requestedUrl r
      · simpa using hs
      · exact nonneg_addLangs _ _ hs (hnet _)

theorem aggregate_step_invalid (net : String → List (String × Int)) (s : AggState)
    (r : Repo) (h : is_valid_repo r = false) : aggregate_step net s r = s := by
  apply aggregate_step_skip
  simp [requestedUrl, h]

theorem agg_filter_valid (net : String → List (String × Int)) (repos : List Repo) :
    ∀ s : AggState,
      (repos.filter is_valid_repo).foldl (aggregate_step net) s =
        repos.foldl (aggregate_step net) s := by
  induction repos with
  | nil => intro s; rfl
  | cons r rs ih =>
      intro s
      cases hv : is_valid_repo r
      · rw [List.filter_cons_of_neg (by simp [hv]), ih, List.foldl_cons,
          aggregate_step_invalid net s r hv]
      · rw [List.filter_cons_of_pos (by simp [hv]), List.foldl_cons, List.foldl_cons, ih]

/-! ### `fetchPages` lemmas -/

theorem fetchPages_spec {α : Type} (pages : Nat → List α) :
    ∀ (n fuel page : Nat), (∀ i, i < n → pages (page + i) ≠ []) →
      pages (page + n) = [] → n + 1 ≤ fuel →
      fetchPages pages fuel page = (pageConcat pages page n, n + 1) := by
  intro n
  induction n with
  | zero =>
      intro fuel page _hne hemp hf
      obtain ⟨f, rfl⟩ : ∃ f, fuel = f + 1 := ⟨fuel - 1, by omega⟩
      rw [Nat.add_zero] at hemp
      simp [fetchPages, pageConcat, hemp]
  | succ n ih =>
      intro fuel page hne hemp hf
      obtain ⟨f, rfl⟩ : ∃ f, fuel = f + 1 := ⟨fuel - 1, by omega⟩
      have h0 : pages page ≠ [] := by
        have h1 := hne 0 (Nat.succ_pos n)
        simpa using h1
      have hie : (pages page).isEmpty = false := by
        cases hpp : pages page with
        | nil => exact absurd hpp h0
        | cons a l => rfl
      have hrest : fetchPages pages f (page + 1) = (pageConcat pages (page + 1) n, n + 1) := by
        apply ih
        · intro i hi
          have h2 := hne (i + 1) (by omega)
          have h3 : page + (i + 1) = page + 1 + i := by omega
          rw [h3] at h2
          exact h2
        · have h3 : page + (n + 1) = page + 1 + n := by omega
          rw [← h3]
          exact hemp
        · omega
      rw [show fetchPages pages (f + 1) page =
            (pages page ++ (fetchPages pages f (page + 1)).1,
             (fetchPages pages f (page + 1)).2 + 1) from by simp [fetchPages, hie]]
      rw [hrest]
      simp [pageConcat]

/-! ### `calculate_percentages` lemmas -/

theorem calc_eq (lb : List (String × Int)) (h : (lb.map Prod.snd).sum ≠ 0) :
    calculate_percentages lb =
      (List.insertionSort shareDesc (lb.map (mkShare (lb.map Prod.snd).sum))).take 5 := by
  unfold calculate_percentages
  rw [if_neg h]
  rfl

theorem calc_zero (lb : List (String × Int)) (h : (lb.map Prod.snd).sum = 0) :
    calculate_percentages lb = [] := by
  unfold calculate_percentages
  rw [if_pos h]

/-- The sorted-permutation characterisation shared by several claims. -/
theorem calc_spec (lb : List (String × Int)) (h : (lb.map Prod.snd).sum ≠ 0) :
    ∃ s : List LanguageShare,
      s.Perm (lb.map (mkShare (lb.map Prod.snd).sum)) ∧
      s.Pairwise shareDesc ∧
      calculate_percentages lb = s.take 5 :=
  ⟨_, List.perm_insertionSort _ _, List.sorted_insertionSort _ _, calc_eq lb h⟩

/-- In a list sorted descending by percent, if some element of the first five
has percent `≤ 0` then every element with positive percent is among the
first five. -/
theorem take5_complete {s : List LanguageShare} (hs : s.Pairwise shareDesc)
    {r x : LanguageShare} (hr : r ∈ s.take 5) (hrp : r.percent ≤ 0)
    (hx : x ∈ s) (hxp : 0 < x.percent) : x ∈ s.take 5 := by
  by_contra hnot
  have hxd : x ∈ s.drop 5 := by
    have h1 : x ∈ s.take 5 ++ s.drop 5 := by
      rw [List.take_append_drop]
      exact hx
    rcases List.mem_append.1 h1 with h | h
    · exact absurd h hnot
    · exact h
  obtain ⟨i, hi, hieq⟩ := List.getElem_of_mem hr
  obtain ⟨j, hj, hjeq⟩ := List.getElem_of_mem hxd
  rw [List.getElem_take] at hieq
  rw [List.getElem_drop] at hjeq
  have hi5 : i < 5 := by
    have h2 := hi
    rw [List.length_take] at h2
    omega
  have hil : i < s.length := by
    have h2 := hi
    rw [List.length_take] at h2
    omega
  have hjl : 5 + j < s.length := by
    have h2 := hj
    rw [List.length_drop] at h2
    omega
  have hrel := List.pairwise_iff_getElem.1 hs i (5 + j) hil hjl (by omega)
  rw [hieq, hjeq] at hrel
  have : x.percent ≤ r.percent := hrel
  linarith

/-! ### `generate_svg` lemmas -/

theorem foldl_svgStep (langs : List LanguageShare) :
    ∀ (acc : List String) (y : Int),
      langs.foldl svgStep (acc, y) =
        (acc ++ svgRowsFrom y langs, y + 18 * langs.length) := by
  induction langs with
  | nil => intro acc y; simp [svgRowsFrom]
  | cons l ls ih =>
      intro acc y
      rw [List.foldl_cons, show svgStep (acc, y) l = (acc ++ svgRow l y, y + 18) from rfl, ih]
      simp only [svgRowsFrom, List.append_assoc, List.length_cons, Prod.mk.injEq, true_and]
      push_cast
      ring

/-! ### Claims -/

section Claims

attribute [local semireducible] Rat.mul Rat.add Rat.sub Rat.inv Rat.ofScientific

/-- C1: for a totals mapping whose values sum to a positive total,
`calculate_percentages` builds one record per language with
`percent = round(100 * value / total, 1)` (round-half-to-even at one
decimal), sorts the records by percent descending, and returns exactly the
first 5 records of that sorted sequence. -/
theorem claim_C1 (lb : List (String × Int)) (h : 0 < (lb.map Prod.snd).sum) :
    ∃ s : List LanguageShare,
      s.Perm (lb.map fun p =>
        { name := p.1
          percent := pyRound1 (100 * (p.2 : ℚ) / (((lb.map Prod.snd).sum : Int) : ℚ)) }) ∧
      s.Pairwise (fun a b => b.percent ≤ a.percent) ∧
      calculate_percentages lb = s.take 5 := by
  have hne : (lb.map Prod.snd).sum ≠ 0 := ne_of_gt h
  obtain ⟨s, hperm, hsort, heq⟩ := calc_spec lb hne
  refine ⟨s, ?_, hsort, heq⟩
  have hfun : lb.map (mkShare (lb.map Prod.snd).sum) =
      lb.map fun p =>
        { name := p.1
          percent := pyRound1 (100 * (p.2 : ℚ) / (((lb.map Prod.snd).sum : Int) : ℚ)) } := by
    apply List.map_congr_left
    intro p _
    unfold mkShare
    have harg : (p.2 : ℚ) / (((lb.map Prod.snd).sum : Int) : ℚ) * 100 =
        100 * (p.2 : ℚ) / (((lb.map Prod.snd).sum : Int) : ℚ) := by ring
    rw [LanguageShare.mk.injEq]
    exact ⟨rfl, by rw [harg]⟩
  rw [hfun] at hperm
  exact hperm

/-- Witness for C1 at the fixture `lbZ` (total 2005). -/
theorem claim_C1_witness :
    ∃ s : List LanguageShare,
      s.Perm (lbZ.map fun p =>
        { name := p.1
          percent := pyRound1 (100 * (p.2 : ℚ) / (((lbZ.map Prod.snd).sum : Int) : ℚ)) }) ∧
      s.Pairwise (fun a b => b.percent ≤ a.percent) ∧
      calculate_percentages lbZ = s.take 5 :=
  claim_C1 lbZ (by decide)

/-- C2: a totals mapping summing to 0 (the empty mapping included) makes
`calculate_percentages` return `[]`, and `main` then prints the no-data
message and writes no file. -/
theorem claim_C2 :
    (∀ lb : List (String × Int), (lb.map Prod.snd).sum = 0 → calculate_percentages lb = []) ∧
    (∀ (pages : Nat → List Repo) (net : String → List (String × Int)) (fuel : Nat),
      ((aggregate_languages net (fetch_all_repos pages fuel).1).totals.map Prod.snd).sum = 0 →
      Script.main pages net fuel = { printed := "No language data found.", written := none }) := by
  constructor
  · exact fun lb h => calc_zero lb h
  · intro pages net fuel h
    simp [Script.main, calc_zero _ h]

/-- Witness for C2 on an empty repository source. -/
theorem claim_C2_witness :
    calculate_percentages ([] : List (String × Int)) = [] ∧
    Script.main (fun _ => []) (fun _ => []) 1 =
      { printed := "No language data found.", written := none } :=
  ⟨claim_C2.1 [] rfl, claim_C2.2 (fun _ => []) (fun _ => []) 1 (by decide)⟩

/-- C3: the fetch loop requests pages from 1 on, stops at the first empty
page `e`, and returns the concatenation of pages `1 … e - 1` after exactly
`e` requests; with pages of 100, 100 and 0 items it returns 200 items in 3
requests (see the witness). -/
theorem claim_C3 {α : Type} (pages : Nat → List α) (e fuel : Nat) (h1 : 1 ≤ e)
    (hne : ∀ j, 1 ≤ j → j < e → pages j ≠ []) (he : pages e = [])
    (hef : e ≤ fuel) :
    fetch_all_repos pages fuel = (pageConcat pages 1 (e - 1), e) := by
  unfold fetch_all_repos
  have heq := fetchPages_spec pages (e - 1) fuel 1
    (fun i hi => hne (1 + i) (by omega) (by omega))
    (by rw [show 1 + (e - 1) = e from by omega]; exact he)
    (by omega)
  rw [heq, show e - 1 + 1 = e from by omega]

/-- Witness for C3: pages of 100, 100, then 0 items yield exactly 200
repositories in exactly 3 requests. -/
theorem claim_C3_witness :
    (fetch_all_repos pages3 10).1.length = 200 ∧ (fetch_all_repos pages3 10).2 = 3 := by
  have h := claim_C3 pages3 3 10 (by omega)
    (fun j hj1 hj2 => by interval_cases j <;> decide) (by decide) (by omega)
  rw [h]
  constructor
  · norm_num [pageConcat, pages3]
  · rfl

/-- C4: `is_valid_repo` is false exactly on forked or archived
repositories; filtering them away does not change the aggregation at all
(neither totals nor requests), and every requested language URL belongs to
some valid repository — so a repository that is forked or archived is never
queried and never contributes bytes. -/
theorem claim_C4 :
    (∀ repo : Repo, is_valid_repo repo = false ↔ (repo.fork = true ∨ repo.archived = true)) ∧
    (∀ (net : String → List (String × Int)) (repos : List Repo),
      aggregate_languages net (repos.filter is_valid_repo) = aggregate_languages net repos) ∧
    (∀ (net : String → List (String × Int)) (repos : List Repo) (u : String),
      u ∈ (aggregate_languages net repos).requested →
      ∃ r ∈ repos, is_valid_repo r = true ∧ r.languages_url = some u) := by
  refine ⟨?_, ?_, ?_⟩
  · intro repo
    unfold is_valid_repo
    cases hf : repo.fork <;> cases ha : repo.archived <;> simp
  · intro net repos
    exact agg_filter_valid net repos ⟨[], []⟩
  · intro net repos u hu
    unfold aggregate_languages at hu
    rw [agg_requested net repos ⟨[], []⟩] at hu
    simp only [List.nil_append] at hu
    obtain ⟨r, hr, hru⟩ := List.mem_filterMap.1 hu
    refine ⟨r, hr, ?_⟩
    unfold requestedUrl at hru
    cases hv : is_valid_repo r
    · rw [hv] at hru
      simp at hru
    · rw [hv] at hru
      cases hl : r.languages_url with
      | none =>
          rw [hl] at hru
          simp at hru
      | some url =>
          rw [hl] at hru
          by_cases hb : url = ""
          · simp [hb] at hru
          · simp [hb] at hru
            exact ⟨rfl, by rw [hru]⟩

/-- Witness for C4: a forked repository is invalid. -/
theorem claim_C4_witness : is_valid_repo repoFork = false :=
  (claim_C4.1 repoFork).mpr (Or.inl rfl)

/-- C5 as stated is false: the counterexample.  In `lbZ` the zero-byte
language `Z` (0 bytes, percent `0.0`) takes the fifth slot while the
one-byte language `T` (nonzero total, but percent rounding to `0.0`) is
pushed out; dropping `Z` from the mapping puts `T` into the top 5.  So a
zero-total language can displace a nonzero-total language. -/
theorem claim_C5_counterexample :
    dictGetD lbZ "Z" 0 = 0 ∧ dictGetD lbZ "T" 0 = 1 ∧
    (calculate_percentages lbZ).map LanguageShare.name = ["B1", "B2", "B3", "B4", "Z"] ∧
    (calculate_percentages lbDropZ).map LanguageShare.name = ["B1", "B2", "B3", "B4", "T"] :=
  ⟨by decide, by decide, by decide, by decide⟩

/-- C5 (amended): a language with byte total exactly 0 receives percent
`0.0`, and it never displaces a language whose *rounded* percent is
positive: whenever a record with percent `0.0` (or lower) is in the
returned top 5, every record with positive percent is also in it.  Only
languages whose percent itself rounds to `0.0` can be displaced. -/
theorem claim_C5 (lb : List (String × Int)) (htot : (lb.map Prod.snd).sum ≠ 0) :
    (∀ p ∈ lb, p.2 = 0 → (mkShare (lb.map Prod.snd).sum p).percent = 0) ∧
    (∀ r ∈ calculate_percentages lb, r.percent ≤ 0 →
      ∀ x ∈ lb.map (mkShare (lb.map Prod.snd).sum), 0 < x.percent →
        x ∈ calculate_percentages lb) := by
  constructor
  · intro p _ hp0
    unfold mkShare
    rw [hp0]
    show pyRound1 (((0 : Int) : ℚ) / _ * 100) = 0
    rw [show (((0 : Int) : ℚ) / ((((lb.map Prod.snd).sum : Int)) : ℚ) * 100) = 0 from by
      push_cast
      ring]
    unfold pyRound1 roundHalfEven
    norm_num
  · intro r hr hr0 x hx hxp
    obtain ⟨s, hperm, hsort, heq⟩ := calc_spec lb htot
    rw [heq] at hr ⊢
    have hx2 : x ∈ s := hperm.mem_iff.2 hx
    exact take5_complete hsort hr hr0 hx2 hxp

/-- Witness for the amended C5 at the fixture `lbZ`. -/
theorem claim_C5_witness :
    (mkShare ((lbZ.map Prod.snd).sum) ("Z", 0)).percent = 0 :=
  (claim_C5 lbZ (by decide)).1 ("Z", 0) (by decide) rfl

/-- C6: aggregation is order-independent — permuting the repository list
(with the same per-repository breakdowns) yields totals that agree as
mappings: same value at every key and same key membership. -/
theorem claim_C6 (net : String → List (String × Int)) (repos1 repos2 : List Repo)
    (hperm : repos1.Perm repos2) :
    (∀ k, dictGetD (aggregate_languages net repos1).totals k 0 =
          dictGetD (aggregate_languages net repos2).totals k 0) ∧
    (∀ k, hasKey (aggregate_languages net repos1).totals k =
          hasKey (aggregate_languages net repos2).totals k) := by
  constructor
  · intro k
    unfold aggregate_languages
    rw [agg_totals_get net repos1 ⟨[], []⟩ k, agg_totals_get net repos2 ⟨[], []⟩ k]
    have hmp : (repos1.map fun r => repoKeyBytes net r k).Perm
        (repos2.map fun r => repoKeyBytes net r k) := hperm.map _
    rw [hmp.sum_eq]
  · intro k
    unfold aggregate_languages
    rw [agg_hasKey net repos1 ⟨[], []⟩ k, agg_hasKey net repos2 ⟨[], []⟩ k]
    have hany : (repos1.any fun r => repoMentions net r k) =
        (repos2.any fun r => repoMentions net r k) := by
      rw [Bool.eq_iff_iff, List.any_eq_true, List.any_eq_true]
      constructor
      · rintro ⟨r, hr, hm⟩
        exact ⟨r, hperm.subset hr, hm⟩
      · rintro ⟨r, hr, hm⟩
        exact ⟨r, hperm.symm.subset hr, hm⟩
    rw [hany]

/-- Witness for C6 on a two-repository swap. -/
theorem claim_C6_witness :
    dictGetD (aggregate_languages netAB [repoA, repoB]).totals "Python" 0 =
      dictGetD (aggregate_languages netAB [repoB, repoA]).totals "Python" 0 :=
  (claim_C6 netAB [repoA, repoB] [repoB, repoA] (List.Perm.swap repoB repoA [])).1 "Python"

/-- C7: with non-negative byte counts from every breakdown, after any
number of processed repositories (any prefix, hence at every step and at
the end) every accumulated value is non-negative and the values sum to the
total bytes of the counted repositories processed so far. -/
theorem claim_C7 (net : String → List (String × Int)) (repos : List Repo)
    (hnet : ∀ u, ∀ p ∈ net u, 0 ≤ p.2) (n : Nat) :
    (∀ p ∈ (aggregate_languages net (repos.take n)).totals, 0 ≤ p.2) ∧
    ((aggregate_languages net (repos.take n)).totals.map Prod.snd).sum =
      countedBytes net (repos.take n) := by
  constructor
  · exact agg_nonneg net hnet (repos.take n) ⟨[], []⟩ (by simp)
  · have h := agg_totals_sum net (repos.take n) ⟨[], []⟩
    simpa using h

/-- Witness for C7 on the two-repository fixture (with a fork in between). -/
theorem claim_C7_witness :
    (∀ p ∈ (aggregate_languages netAB ([repoA, repoFork, repoB].take 3)).totals, 0 ≤ p.2) ∧
    ((aggregate_languages netAB ([repoA, repoFork, repoB].take 3)).totals.map Prod.snd).sum =
      countedBytes netAB ([repoA, repoFork, repoB].take 3) := by
  refine claim_C7 netAB [repoA, repoFork, repoB] ?_ 3
  intro u p hp
  by_cases h1 : u = "uA"
  · simp [netAB, h1] at hp
    rcases hp with rfl | rfl <;> decide
  · by_cases h2 : u = "uB"
    · simp [netAB, h1, h2] at hp
      rcases hp with rfl | rfl <;> decide
    · simp [netAB, h1, h2] at hp

/-- C9: the data pipeline from per-repository language data to the rendered
document is a pure function — identical upstream data (same repository list
and the same breakdown for every URL) gives a byte-identical document. -/
theorem claim_C9 (net1 net2 : String → List (String × Int)) (repos1 repos2 : List Repo)
    (hr : repos1 = repos2) (hn : ∀ u, net1 u = net2 u) :
    pipeline net1 repos1 = pipeline net2 repos2 := by
  subst hr
  have hnet : net1 = net2 := funext hn
  subst hnet
  rfl

/-- Witness for C9 at the two-repository fixture. -/
theorem claim_C9_witness :
    pipeline netAB [repoA, repoB] = pipeline netAB [repoA, repoB] :=
  claim_C9 netAB netAB [repoA, repoB] [repoA, repoB] rfl fun _ => rfl

/-- C10: a valid (non-fork, non-archived) repository whose record has no
`languages_url` (or an empty one) is silently skipped: removing it from the
repository list changes neither the totals nor the requested URLs, and the
aggregation is total (no error path). -/
theorem claim_C10 (net : String → List (String × Int)) (repos1 repos2 : List Repo)
    (r : Repo) (hf : r.fork = false) (ha : r.archived = false)
    (hurl : r.languages_url = none ∨ r.languages_url = some "") :
    aggregate_languages net (repos1 ++ r :: repos2) =
      aggregate_languages net (repos1 ++ repos2) := by
  unfold aggregate_languages
  rw [List.foldl_append, List.foldl_append, List.foldl_cons]
  congr 1
  apply aggregate_step_skip
  unfold requestedUrl
  rcases hurl with h | h <;> simp [is_valid_repo, hf, ha, h]

/-- Witness for C10: dropping the url-less repository changes nothing. -/
theorem claim_C10_witness :
    aggregate_languages netAB [repoA, repoNoUrl, repoB] =
      aggregate_languages netAB [repoA, repoB] :=
  claim_C10 netAB [repoA] [repoB] repoNoUrl rfl rfl (Or.inl rfl)

end Claims

/-- C8: `generate_svg` emits the fixed header for a document whose height
is `2 * 15 + 25 + 18 * n` for `n` entries (`padding`, `title_height`,
`row_height`), then exactly one three-line row group per entry at
descending offsets; the first line of each row group is the bar `<rect>`
whose width is the decimal rendering of `(percent / 100) * 180` — linear in
the percent of all languages, not renormalised to the displayed subset. -/
theorem claim_C8 (languages : List LanguageShare) :
    generate_svg languages =
      String.intercalate "\n"
        (svgHeader (2 * 15 + 25 + 18 * (languages.length : Int)) ++
         svgRowsFrom (15 + 25) languages ++ ["</svg>"]) ∧
    ∀ (lang : LanguageShare) (y : Int),
      (svgRow lang y).head? =
        some s!"<rect x=\"15\" y=\"{y}\" width=\"{qStr (lang.percent / 100 * 180)}\" height=\"8\" class=\"bar\" fill=\"{dictGetD LANG_COLORS lang.name fallbackColor}\" />" := by
  constructor
  · show String.intercalate "\n"
        ((languages.foldl svgStep
          (svgHeader (15 * 2 + 25 + 18 * (languages.length : Int)), 15 + 25)).1 ++
         ["</svg>"]) = _
    rw [foldl_svgStep]
    rw [show (15 * 2 + 25 + 18 * (languages.length : Int)) =
        (2 * 15 + 25 + 18 * (languages.length : Int)) from by ring]
  · intro lang y
    rfl
